import Mathlib

/-!
Verification of the wikai core against its specification.

The development shallowly embeds, in Lean, the components of the repository
that the specification describes:

* `Embedding` — the binary codec for float vectors (`pkg/embedding`,
  `MarshalJSON` / `UnmarshalJSON`).  A 64-bit float is handled by the Go code
  exclusively through its IEEE-754 bit pattern (`math.Float64bits` /
  `math.Float64frombits`, a bijection), so vector elements are modelled as
  their bit patterns: natural numbers below `2^64`.
* `Search` — the in-memory vector index (`pkg/search`): `Add` with
  last-write-wins conflict resolution, the bounded max-heap top-K `Search`,
  `NumRows`, `DocStamp`.  A Go `map[string]row` is modelled as an association
  list with pairwise-distinct keys; quantifying over all such lists covers
  every possible map iteration order.  Timestamps (`time.Time`) are modelled
  as integers ordered by `<` (`time.After` is strict `>`).  The cosine
  distance is a float computation delegated to the external gonum library;
  distances are modelled as rationals and `Search` is parameterised by the
  distance function, so every theorem about it holds for the cosine distance
  in particular.
* `Backai` — the conversation orchestrator (`pkg/backai`): the LRU session
  store `recentChats`, the retrieval-stage tools `write` and `search`, the
  conditional summarize stage, and `Query`.  The external collaborators
  (embedder, document store, agent runtime) are parameters: the agent's
  behaviour during a turn is the list of tool calls it makes.
-/

namespace Embedding

/-- One 64-bit word serialised in little-endian byte order, exactly as
`binary.LittleEndian.PutUint64` writes it: byte `i` is `(x >>> (8*i)) % 256`. -/
def putUint64 (x : Nat) : List Nat :=
  [x % 256, x / 2 ^ 8 % 256, x / 2 ^ 16 % 256, x / 2 ^ 24 % 256,
   x / 2 ^ 32 % 256, x / 2 ^ 40 % 256, x / 2 ^ 48 % 256, x / 2 ^ 56 % 256]

/-- Go `binary.LittleEndian.Uint64`: reassemble a 64-bit word from the first
eight bytes of the buffer, `b[0] | b[1]<<8 | ... | b[7]<<56`.  (The Go
function is only ever applied to buffers of at least eight bytes; out-of-range
reads default to `0` here.) -/
def getUint64 (b : List Nat) : Nat :=
  b.getD 0 0 + 2 ^ 8 * b.getD 1 0 + 2 ^ 16 * b.getD 2 0 + 2 ^ 24 * b.getD 3 0 +
  2 ^ 32 * b.getD 4 0 + 2 ^ 40 * b.getD 5 0 + 2 ^ 48 * b.getD 6 0 + 2 ^ 56 * b.getD 7 0

/-- The byte blob built by `Embedding.MarshalJSON`: each element of the
vector (a float64 bit pattern) contributes an 8-byte little-endian block. -/
def encodeVector (v : List Nat) : List Nat :=
  v.flatMap putUint64

/-- The vector rebuilt by `Embedding.UnmarshalJSON` from a byte blob:
`len(buf)/8` elements, element `i` read from bytes `8*i ..< 8*i+8`.
Trailing bytes beyond the last full 8-byte block are ignored, exactly as in
the Go loop `for i := range vector { binary.LittleEndian.Uint64(buf[i*8:]) }`
with `vector := make([]float64, len(buf)/8)`. -/
def decodeVector (buf : List Nat) : List Nat :=
  (List.range (buf.length / 8)).map fun i => getUint64 (buf.drop (8 * i))

/-- The wire envelope of an embedding: the id together with the result of the
base64 step.  `Except.error e` stands for a failing
`base64.StdEncoding.DecodeString` (the base64 codec is the external Go
standard library); `Except.ok buf` is the decoded byte blob. -/
structure Envelope where
  id : String
  blob : Except String (List Nat)

/-- The decoded embedding: id plus vector of float64 bit patterns. -/
structure Emb where
  id : String
  vector : List Nat
deriving DecidableEq

/-- Go `Embedding.MarshalJSON` (the part below JSON/base64 wrapping): the
envelope holds the id and the little-endian byte blob of the vector. -/
def marshal (e : Emb) : Envelope :=
  { id := e.id, blob := Except.ok (encodeVector e.vector) }

/-- Go `Embedding.UnmarshalJSON` after JSON parsing: a failing base64 decode is
wrapped into an error and aborts; otherwise the vector is rebuilt from the
blob and the id is restored.  There is no length-divisibility check. -/
def unmarshal (env : Envelope) : Except String Emb :=
  match env.blob with
  | Except.error e => Except.error ("failed to decode vector base64: " ++ e)
  | Except.ok buf => Except.ok { id := env.id, vector := decodeVector buf }

theorem getUint64_putUint64 (x : Nat) (rest : List Nat) (h : x < 2 ^ 64) :
    getUint64 (putUint64 x ++ rest) = x := by
  simp only [putUint64, getUint64, List.cons_append, List.getD_cons_zero,
    List.getD_cons_succ]
  omega

theorem length_putUint64 (x : Nat) : (putUint64 x).length = 8 := rfl

theorem decodeVector_nil : decodeVector [] = [] := rfl

theorem decodeVector_block (b rest : List Nat) (hb : b.length = 8) :
    decodeVector (b ++ rest) = getUint64 (b ++ rest) :: decodeVector rest := by
  have hlen : (b ++ rest).length / 8 = rest.length / 8 + 1 := by
    simp [List.length_append, hb]
  simp only [decodeVector, hlen, List.range_succ_eq_map, List.map_cons,
    Nat.mul_zero, List.drop_zero, List.map_map]
  congr 1
  apply List.map_congr_left
  intro i _
  simp only [Function.comp_apply]
  have h2 : 8 * (i + 1) = b.length + 8 * i := by omega
  rw [h2, List.drop_append_eq_append_drop]
  have h3 : List.drop (8 + 8 * i) b = [] := List.drop_eq_nil_of_le (by omega)
  simp [h3, hb]

theorem decodeVector_encodeVector (v : List Nat) (h : ∀ x ∈ v, x < 2 ^ 64) :
    decodeVector (encodeVector v) = v := by
  induction v with
  | nil => rfl
  | cons x xs ih =>
      have hx : x < 2 ^ 64 := h x (List.mem_cons_self x xs)
      have hxs : ∀ y ∈ xs, y < 2 ^ 64 := fun y hy => h y (List.mem_cons_of_mem x hy)
      simp only [encodeVector, List.flatMap_cons]
      rw [decodeVector_block (putUint64 x) (xs.flatMap putUint64) (length_putUint64 x)]
      rw [getUint64_putUint64 x _ hx]
      exact congrArg (x :: ·) (ih hxs)

theorem getUint64_append (b m : List Nat) (hb : 8 ≤ b.length) :
    getUint64 (b ++ m) = getUint64 b := by
  simp only [getUint64]
  rw [List.getD_append _ _ _ _ (by omega), List.getD_append _ _ _ _ (by omega),
    List.getD_append _ _ _ _ (by omega), List.getD_append _ _ _ _ (by omega),
    List.getD_append _ _ _ _ (by omega), List.getD_append _ _ _ _ (by omega),
    List.getD_append _ _ _ _ (by omega), List.getD_append _ _ _ _ (by omega)]

theorem decodeVector_short (extra : List Nat) (hlt : extra.length < 8) :
    decodeVector extra = [] := by
  have h : extra.length / 8 = 0 := by omega
  simp [decodeVector, h]

theorem length_decodeVector (buf : List Nat) :
    (decodeVector buf).length = buf.length / 8 := by
  simp [decodeVector]

theorem decodeVector_append_extra (extra : List Nat) (hlt : extra.length < 8) :
    ∀ (n : Nat) (buf : List Nat), buf.length = 8 * n →
      decodeVector (buf ++ extra) = decodeVector buf := by
  intro n
  induction n with
  | zero =>
      intro buf h
      have hnil : buf = [] := List.eq_nil_of_length_eq_zero (by omega)
      subst hnil
      simp [decodeVector_short extra hlt, decodeVector_nil]
  | succ n ih =>
      intro buf h
      have hsplit : buf = buf.take 8 ++ buf.drop 8 := (List.take_append_drop 8 buf).symm
      have htake : (buf.take 8).length = 8 := by
        rw [List.length_take]
        omega
      have hdrop : (buf.drop 8).length = 8 * n := by
        rw [List.length_drop]
        omega
      calc decodeVector (buf ++ extra)
          = decodeVector (buf.take 8 ++ (buf.drop 8 ++ extra)) := by
            rw [← List.append_assoc, ← hsplit]
        _ = getUint64 (buf.take 8 ++ (buf.drop 8 ++ extra)) ::
              decodeVector (buf.drop 8 ++ extra) := decodeVector_block _ _ htake
        _ = getUint64 (buf.take 8 ++ buf.drop 8) :: decodeVector (buf.drop 8) := by
            rw [getUint64_append _ _ (by omega), getUint64_append _ _ (by omega),
              ih (buf.drop 8) hdrop]
        _ = decodeVector buf := by
            rw [← decodeVector_block _ _ htake, ← hsplit]

/-- C3: decoding the encoded wire form of any finite vector of 64-bit floats
(given by their IEEE-754 bit patterns, hence including NaN and ±Infinity
patterns and the empty vector) restores the vector bit-for-bit and also
restores the id. -/
theorem C3_decode_encode_roundtrip (e : Emb) (h : ∀ x ∈ e.vector, x < 2 ^ 64) :
    unmarshal (marshal e) = Except.ok e := by
  simp [marshal, unmarshal, decodeVector_encodeVector e.vector h]

/-- Witness for C3 at a concrete vector holding a quiet-NaN bit pattern,
the +Infinity and -Infinity bit patterns and zero, and at the empty vector. -/
theorem C3_decode_encode_roundtrip_witness :
    unmarshal (marshal ⟨"doc",
        [0x7FF8000000000001, 0x7FF0000000000000, 0xFFF0000000000000, 0]⟩) =
      Except.ok ⟨"doc",
        [0x7FF8000000000001, 0x7FF0000000000000, 0xFFF0000000000000, 0]⟩ ∧
    unmarshal (marshal ⟨"empty", []⟩) = Except.ok ⟨"empty", []⟩ :=
  ⟨C3_decode_encode_roundtrip _ (by decide), C3_decode_encode_roundtrip _ (by decide)⟩

/-- C6 counterexample: an envelope whose base64-decoded blob is 9 bytes long
(not a multiple of 8) does not fail; `UnmarshalJSON` silently drops the
trailing byte and returns the one complete float. -/
theorem C6_counterexample :
    unmarshal ⟨"x", Except.ok [1, 0, 0, 0, 0, 0, 0, 0, 99]⟩ =
      Except.ok ⟨"x", [1]⟩ := by
  rfl

/-- C6 amended: decode fails exactly when the base64 step fails (the error is
propagated, wrapped); a blob whose length is not a multiple of 8 does NOT
fail: the trailing `len mod 8` bytes are silently dropped and `len / 8`
floats are decoded. -/
theorem C6_unmarshal_truncates (id e : String) (buf extra : List Nat)
    (h8 : buf.length % 8 = 0) (hlt : extra.length < 8) :
    unmarshal ⟨id, Except.ok (buf ++ extra)⟩ = Except.ok ⟨id, decodeVector buf⟩ ∧
    (decodeVector buf).length = buf.length / 8 ∧
    unmarshal ⟨id, Except.error e⟩ =
      Except.error ("failed to decode vector base64: " ++ e) := by
  refine ⟨?_, length_decodeVector buf, rfl⟩
  simp [unmarshal, decodeVector_append_extra extra hlt (buf.length / 8) buf (by omega)]

/-- Witness for C6 amended: an 8-byte block followed by one stray byte. -/
theorem C6_unmarshal_truncates_witness :
    unmarshal ⟨"w", Except.ok ([2, 0, 0, 0, 0, 0, 0, 0] ++ [7])⟩ =
      Except.ok ⟨"w", decodeVector [2, 0, 0, 0, 0, 0, 0, 0]⟩ ∧
    (decodeVector [2, 0, 0, 0, 0, 0, 0, 0]).length = [2, 0, 0, 0, 0, 0, 0, 0].length / 8 ∧
    unmarshal ⟨"w", Except.error "bad"⟩ =
      Except.error ("failed to decode vector base64: " ++ "bad") :=
  C6_unmarshal_truncates "w" "bad" _ _ (by decide) (by decide)

end Embedding

namespace Search

/-- A search result (`search.Result`): document path plus its distance to the
query.  Distances (float64 in the source) are modelled as rationals; every
theorem below is parameterised by the distance function, standing for
`cosineDistance` (whose arithmetic is performed by the external gonum
library). -/
structure Result where
  path : String
  distance : ℚ
deriving DecidableEq, Repr

/-- A stored row (`search.row`): embedding vector and timestamp.  `none`
models a nil Go slice (`row.vector == nil`); `time.Time` is modelled as an
integer, `time.After` being strict `>`. -/
structure Row where
  vector : Option (List ℚ)
  stamp : ℤ
deriving DecidableEq, Repr

/-- The vector index `search.db`: a Go `map[string]row` modelled as an
association list whose keys are pairwise distinct.  Stating theorems for
every such list covers every iteration order of the Go map. -/
abbrev DB := List (String × Row)

/-- Map lookup `db.rows[id]`. -/
def lookupRow (db : DB) (id : String) : Option Row :=
  match db with
  | [] => none
  | (k, r) :: rest => if k = id then some r else lookupRow rest id

/-- Map assignment `db.rows[id] = r`. -/
def setRow (db : DB) (id : String) (r : Row) : DB :=
  match db with
  | [] => [(id, r)]
  | (k, v) :: rest => if k = id then (id, r) :: rest else (k, v) :: setRow rest id r

/-- Go `db.Add`: if the stored row's stamp is strictly newer than the incoming
one (`db.rows[id].stamp.After(stamp)`) the call is a no-op; otherwise — also
when the stamps are equal — the row is overwritten. -/
def dbAdd (db : DB) (id : String) (emb : Option (List ℚ)) (stamp : ℤ) : DB :=
  match lookupRow db id with
  | some r => if stamp < r.stamp then db else setRow db id ⟨emb, stamp⟩
  | none => setRow db id ⟨emb, stamp⟩

/-- Go `db.NumRows`: the number of stored ids. -/
def numRows (db : DB) : Nat := db.length

/-- Go `db.DocStamp`. -/
def docStamp (db : DB) (id : String) : Option ℤ :=
  (lookupRow db id).map Row.stamp

/-- Go `heap.Pop` on `resultHeap` (a max-heap: `Less i j ↔ dist i > dist j`):
removes one element of maximal distance.  Which of several equal-distance
elements the Go heap returns is immaterial to every property stated below;
the model removes the first element that dominates the rest of the list. -/
def popMax : List Result → List Result
  | [] => []
  | x :: xs =>
      if xs.all fun y => decide (y.distance ≤ x.distance) then xs
      else x :: popMax xs

/-- Go `bestResults`: the bounded container of the best `maxSize` results seen
so far.  The heap contents are modelled as the plain list of elements. -/
structure BestResults where
  results : List Result
  maxSize : Nat

/-- Go `bestResults.add`: `heap.Push` the result, then `heap.Pop` the current
maximum if the size bound is exceeded. -/
def BestResults.add (br : BestResults) (r : Result) : BestResults :=
  let rs := br.results ++ [r]
  if br.maxSize < rs.length then ⟨popMax rs, br.maxSize⟩ else ⟨rs, br.maxSize⟩

/-- Insert a result into an ascending-by-distance list. -/
def insertAsc (r : Result) : List Result → List Result
  | [] => [r]
  | x :: xs => if r.distance ≤ x.distance then r :: x :: xs else x :: insertAsc r xs

/-- Go `bestResults.get` sorting step `sort.Slice(..., results[i].Distance < results[j].Distance)`:
sort ascending by distance (insertion sort; `sort.Slice` is not stable, and no
stated property depends on the order of equal-distance results). -/
def sortAsc (l : List Result) : List Result := l.foldr insertAsc []

/-- Go `bestResults.get`. -/
def BestResults.get (br : BestResults) : List Result := sortAsc br.results

/-- The loop body of `db.Search`: skip rows with a nil vector, otherwise add
`{Path: id, Distance: dist(query, vector)}` to the bounded best-results
container. -/
def searchStep (dist : List ℚ → List ℚ → ℚ) (query : List ℚ)
    (br : BestResults) (kv : String × Row) : BestResults :=
  match kv.2.vector with
  | none => br
  | some v => br.add ⟨kv.1, dist query v⟩

/-- Go `db.Search`, parameterised by the distance function `dist` (standing for
`cosineDistance`). -/
def dbSearch (dist : List ℚ → List ℚ → ℚ) (db : DB) (query : List ℚ)
    (maxResults : Nat) : List Result :=
  BestResults.get (db.foldl (searchStep dist query) ⟨[], maxResults⟩)

/-- The full, unbounded result list a search would consider: one result per
row with a present (non-nil) vector. -/
def resultsOf (dist : List ℚ → List ℚ → ℚ) (query : List ℚ) (db : DB) :
    List Result :=
  db.filterMap fun kv => (kv.2.vector).map fun v => Result.mk kv.1 (dist query v)

theorem insertAsc_perm (r : Result) (l : List Result) :
    (insertAsc r l).Perm (r :: l) := by
  induction l with
  | nil => exact List.Perm.refl _
  | cons x xs ih =>
      by_cases h : r.distance ≤ x.distance
      · simp [insertAsc, h]
      · simp only [insertAsc, h, if_false]
        exact (ih.cons x).trans (List.Perm.swap r x xs)

theorem insertAsc_pairwise (r : Result) (l : List Result)
    (hl : l.Pairwise fun a b => a.distance ≤ b.distance) :
    (insertAsc r l).Pairwise fun a b => a.distance ≤ b.distance := by
  induction l with
  | nil => simp [insertAsc]
  | cons x xs ih =>
      rcases List.pairwise_cons.mp hl with ⟨hx, hxs⟩
      by_cases h : r.distance ≤ x.distance
      · simp only [insertAsc, h, if_true]
        refine List.pairwise_cons.mpr ⟨?_, hl⟩
        intro y hy
        rcases List.mem_cons.mp hy with hy | hy
        · exact hy ▸ h
        · exact le_trans h (hx y hy)
      · simp only [insertAsc, h, if_false]
        refine List.pairwise_cons.mpr ⟨?_, ih hxs⟩
        intro y hy
        have hy' : y ∈ r :: xs := (insertAsc_perm r xs).mem_iff.mp hy
        rcases List.mem_cons.mp hy' with hy' | hy'
        · exact hy' ▸ le_of_not_le h
        · exact hx y hy'

theorem sortAsc_perm (l : List Result) : (sortAsc l).Perm l := by
  induction l with
  | nil => exact List.Perm.refl _
  | cons x xs ih =>
      exact (insertAsc_perm x (sortAsc xs)).trans (ih.cons x)

theorem sortAsc_pairwise (l : List Result) :
    (sortAsc l).Pairwise fun a b => a.distance ≤ b.distance := by
  induction l with
  | nil => simp [sortAsc]
  | cons x xs ih => exact insertAsc_pairwise x (sortAsc xs) ih

/-- Here `popMax` removes exactly one element of maximal distance. -/
theorem popMax_spec (l : List Result) (h : l ≠ []) :
    ∃ m, (∀ x ∈ l, x.distance ≤ m.distance) ∧ l.Perm (m :: popMax l) := by
  induction l with
  | nil => exact absurd rfl h
  | cons x xs ih =>
      by_cases hall : xs.all fun y => decide (y.distance ≤ x.distance)
      · refine ⟨x, ?_, by simp [popMax, hall]⟩
        intro z hz
        rcases List.mem_cons.mp hz with hz | hz
        · exact hz ▸ le_refl _
        · exact of_decide_eq_true (List.all_eq_true.mp hall z hz)
      · have hxs : xs ≠ [] := by
          intro hnil
          exact hall (by simp [hnil])
        rcases ih hxs with ⟨m, hm, hperm⟩
        have hxm : x.distance ≤ m.distance := by
          rcases List.all_eq_true.not.mp hall with h'
          push_neg at h'
          rcases h' with ⟨y, hy, hyd⟩
          have : ¬ y.distance ≤ x.distance := by
            intro hle
            exact hyd (decide_eq_true hle)
          exact le_trans (le_of_not_le this) (hm y hy)
        refine ⟨m, ?_, ?_⟩
        · intro z hz
          rcases List.mem_cons.mp hz with hz | hz
          · exact hz ▸ hxm
          · exact hm z hz
        · have h1 : (x :: xs).Perm (x :: m :: popMax xs) := hperm.cons x
          have h2 : (x :: m :: popMax xs).Perm (m :: x :: popMax xs) :=
            List.Perm.swap m x (popMax xs)
          have h3 : popMax (x :: xs) = x :: popMax xs := by
            simp [popMax, hall]
          rw [h3]
          exact h1.trans h2

theorem BestResults.add_maxSize (br : BestResults) (r : Result) :
    (br.add r).maxSize = br.maxSize := by
  unfold BestResults.add
  simp only []
  split <;> rfl

theorem foldl_add_maxSize (init : BestResults) (l : List Result) :
    (l.foldl BestResults.add init).maxSize = init.maxSize := by
  induction l generalizing init with
  | nil => rfl
  | cons x xs ih => rw [List.foldl_cons, ih, BestResults.add_maxSize]

/-- Main invariant of the bounded max-heap selection: after feeding any list
of results into an empty `bestResults` of bound `k`, the kept results are a
sub-multiset of the input of size `min |input| k`, and every kept result's
distance is at most every discarded result's distance. -/
theorem foldl_add_spec (k : Nat) (l : List Result) :
    ∃ rest,
      l.Perm ((l.foldl BestResults.add ⟨[], k⟩).results ++ rest) ∧
      (l.foldl BestResults.add ⟨[], k⟩).results.length = min l.length k ∧
      ∀ x ∈ (l.foldl BestResults.add ⟨[], k⟩).results, ∀ y ∈ rest,
        x.distance ≤ y.distance := by
  induction l using List.reverseRecOn with
  | nil => exact ⟨[], by simp, by simp, by simp⟩
  | append_singleton l e ih =>
      rcases ih with ⟨rest, hperm, hlen, hopt⟩
      have hms : (l.foldl BestResults.add ⟨[], k⟩).maxSize = k :=
        foldl_add_maxSize _ _
      have hll : l.length =
          (l.foldl BestResults.add ⟨[], k⟩).results.length + rest.length := by
        simpa using hperm.length_eq
      rw [List.foldl_append, List.foldl_cons, List.foldl_nil]
      set br := l.foldl BestResults.add ⟨[], k⟩ with hbr
      by_cases hcap : br.maxSize < (br.results ++ [e]).length
      · -- at capacity: the pushed heap pops an element of maximal distance
        have hne : br.results ++ [e] ≠ [] := by simp
        rcases popMax_spec _ hne with ⟨m, hmax, hperm2⟩
        have hcap' : br.maxSize < br.results.length + 1 := by
          simpa using hcap
        have hadd : br.add e = ⟨popMax (br.results ++ [e]), br.maxSize⟩ := by
          unfold BestResults.add
          simp [hcap']
        have hklen : br.results.length = k := by
          rw [hms] at hcap'
          omega
        have hplen : (popMax (br.results ++ [e])).length = k := by
          have hq := hperm2.length_eq
          simp at hq
          omega
        refine ⟨m :: rest, ?_, ?_, ?_⟩
        · rw [hadd]
          have step1 : (l ++ [e]).Perm ((br.results ++ rest) ++ [e]) :=
            hperm.append_right [e]
          have step2 : ((br.results ++ rest) ++ [e]).Perm
              ((br.results ++ [e]) ++ rest) := by
            rw [List.append_assoc, List.append_assoc]
            exact List.Perm.append_left br.results List.perm_append_comm
          have step3 : ((br.results ++ [e]) ++ rest).Perm
              ((m :: popMax (br.results ++ [e])) ++ rest) :=
            hperm2.append_right rest
          have step4 : ((m :: popMax (br.results ++ [e])) ++ rest).Perm
              (popMax (br.results ++ [e]) ++ m :: rest) := by
            rw [List.cons_append]
            exact List.perm_middle.symm
          exact ((step1.trans step2).trans step3).trans step4
        · rw [hadd]
          simp only [List.length_append, List.length_singleton]
          omega
        · rw [hadd]
          intro x hx y hy
          simp only at hx
          have hxin : x ∈ br.results ++ [e] :=
            hperm2.mem_iff.mpr (List.mem_cons_of_mem m hx)
          have hxm : x.distance ≤ m.distance := hmax x hxin
          rcases List.mem_cons.mp hy with hy | hy
          · exact hy ▸ hxm
          · rcases List.mem_append.mp hxin with hx' | hx'
            · exact hopt x hx' y hy
            · -- x is the newly pushed element e
              by_cases hmold : m ∈ br.results
              · exact le_trans hxm (hopt m hmold y hy)
              · have hmin : m ∈ br.results ++ [e] :=
                  hperm2.mem_iff.mpr (List.mem_cons_self m _)
                have hme : m = e := by
                  rcases List.mem_append.mp hmin with h' | h'
                  · exact absurd h' hmold
                  · simpa using h'
                have hpp : br.results.Perm (popMax (br.results ++ [e])) := by
                  have h1 : (br.results ++ [e]).Perm (e :: br.results) :=
                    List.perm_append_comm
                  have h2 : (e :: br.results).Perm
                      (e :: popMax (br.results ++ [e])) := by
                    have := hperm2
                    rw [hme] at this
                    exact h1.symm.trans this
                  exact h2.cons_inv
                have hxold : x ∈ br.results := hpp.mem_iff.mpr hx
                exact hopt x hxold y hy
      · -- under capacity: the result is simply appended
        have hcap' : ¬ br.maxSize < br.results.length + 1 := by
          simpa using hcap
        have hadd : br.add e = ⟨br.results ++ [e], br.maxSize⟩ := by
          unfold BestResults.add
          simp [hcap']
        have hlt : br.results.length < k := by
          rw [hms] at hcap'
          omega
        have hrest : rest = [] := by
          have : min l.length k < k := hlen ▸ hlt
          have hlk : min l.length k = l.length := by omega
          have : rest.length = 0 := by omega
          exact List.eq_nil_of_length_eq_zero this
        subst hrest
        refine ⟨[], ?_, ?_, by simp⟩
        · rw [hadd]
          simp only [List.append_nil] at hperm ⊢
          exact hperm.append_right [e]
        · rw [hadd]
          simp only [List.length_append, List.length_singleton]
          omega

theorem foldl_searchStep_eq (dist : List ℚ → List ℚ → ℚ) (q : List ℚ)
    (db : DB) (init : BestResults) :
    db.foldl (searchStep dist q) init =
      (resultsOf dist q db).foldl BestResults.add init := by
  induction db generalizing init with
  | nil => rfl
  | cons kv rest ih =>
      cases hv : kv.2.vector with
      | none =>
          simp only [List.foldl_cons, searchStep, hv, resultsOf,
            List.filterMap_cons, Option.map_none']
          exact ih init
      | some v =>
          simp only [List.foldl_cons, searchStep, hv, resultsOf,
            List.filterMap_cons, Option.map_some']
          exact ih _

/-- The behaviour of `db.Search` for an arbitrary distance function: the
returned list is sorted ascending by distance, contains
`min k (number of non-nil rows)` results, and is a sub-multiset of the full
result list that beats everything it leaves out. -/
theorem dbSearch_spec (dist : List ℚ → List ℚ → ℚ) (db : DB) (q : List ℚ)
    (k : Nat) :
    ∃ rest,
      (resultsOf dist q db).Perm (dbSearch dist db q k ++ rest) ∧
      (dbSearch dist db q k).Pairwise (fun a b => a.distance ≤ b.distance) ∧
      (dbSearch dist db q k).length = min (resultsOf dist q db).length k ∧
      ∀ x ∈ dbSearch dist db q k, ∀ y ∈ rest, x.distance ≤ y.distance := by
  rcases foldl_add_spec k (resultsOf dist q db) with ⟨rest, hperm, hlen, hopt⟩
  have heq : dbSearch dist db q k =
      sortAsc ((resultsOf dist q db).foldl BestResults.add ⟨[], k⟩).results := by
    rw [dbSearch, foldl_searchStep_eq]
    rfl
  have hsp : (sortAsc ((resultsOf dist q db).foldl BestResults.add
      ⟨[], k⟩).results).Perm
      ((resultsOf dist q db).foldl BestResults.add ⟨[], k⟩).results :=
    sortAsc_perm _
  refine ⟨rest, ?_, ?_, ?_, ?_⟩
  · rw [heq]
    exact hperm.trans (hsp.symm.append_right rest)
  · rw [heq]
    exact sortAsc_pairwise _
  · rw [heq, hsp.length_eq, hlen]
  · intro x hx y hy
    rw [heq] at hx
    exact hopt x (hsp.mem_iff.mp hx) y hy

theorem resultsOf_length (dist : List ℚ → List ℚ → ℚ) (q : List ℚ) (db : DB)
    (hvec : ∀ kv ∈ db, kv.2.vector ≠ none) :
    (resultsOf dist q db).length = db.length := by
  induction db with
  | nil => rfl
  | cons kv rest ih =>
      cases hv : kv.2.vector with
      | none => exact absurd hv (hvec kv (List.mem_cons_self kv rest))
      | some v =>
          simp only [resultsOf, List.filterMap_cons, hv, Option.map_some',
            List.length_cons]
          have := ih fun kv' h' => hvec kv' (List.mem_cons_of_mem kv h')
          simp only [resultsOf] at this
          rw [this]

/-- C1: on an index whose rows all carry non-nil vectors, `Search(query, k)`
returns a sub-multiset of the rows' results of size `min k N`, sorted in
ascending distance order, and every returned distance is at most every
omitted row's distance — i.e. exactly the `k` smallest-distance rows for
`k ≤ N` (ties in any order) and all `N` rows for `k > N`.  The theorem is
stated for every distance function `dist`, hence in particular for the
cosine distance `1 - dot(a,b)/(‖a‖·‖b‖)` computed by the external numeric
library. -/
theorem C1_search_topk (dist : List ℚ → List ℚ → ℚ) (db : DB) (q : List ℚ)
    (k : Nat) (hvec : ∀ kv ∈ db, kv.2.vector ≠ none) :
    ∃ rest,
      (resultsOf dist q db).Perm (dbSearch dist db q k ++ rest) ∧
      (dbSearch dist db q k).Pairwise (fun a b => a.distance ≤ b.distance) ∧
      (dbSearch dist db q k).length = min k (numRows db) ∧
      ∀ x ∈ dbSearch dist db q k, ∀ y ∈ rest, x.distance ≤ y.distance := by
  rcases dbSearch_spec dist db q k with ⟨rest, h1, h2, h3, h4⟩
  refine ⟨rest, h1, h2, ?_, h4⟩
  rw [h3, resultsOf_length dist q db hvec, numRows, Nat.min_comm]

/-- Witness for C1: three rows, `k = 2`, distance = first coordinate of the
row vector; the two nearest rows are returned in ascending order. -/
theorem C1_search_topk_witness :
    ∃ rest,
      (resultsOf (fun _ v => v.headD 0) []
          [("a", ⟨some [3], 0⟩), ("b", ⟨some [1], 0⟩), ("c", ⟨some [2], 0⟩)]).Perm
        (dbSearch (fun _ v => v.headD 0)
          [("a", ⟨some [3], 0⟩), ("b", ⟨some [1], 0⟩), ("c", ⟨some [2], 0⟩)] [] 2 ++ rest) ∧
      (dbSearch (fun _ v => v.headD 0)
          [("a", ⟨some [3], 0⟩), ("b", ⟨some [1], 0⟩), ("c", ⟨some [2], 0⟩)] [] 2).Pairwise
        (fun a b => a.distance ≤ b.distance) ∧
      (dbSearch (fun _ v => v.headD 0)
          [("a", ⟨some [3], 0⟩), ("b", ⟨some [1], 0⟩), ("c", ⟨some [2], 0⟩)] [] 2).length =
        min 2 (numRows [("a", ⟨some [3], 0⟩), ("b", ⟨some [1], 0⟩), ("c", ⟨some [2], 0⟩)]) ∧
      ∀ x ∈ dbSearch (fun _ v => v.headD 0)
          [("a", ⟨some [3], 0⟩), ("b", ⟨some [1], 0⟩), ("c", ⟨some [2], 0⟩)] [] 2,
        ∀ y ∈ rest, x.distance ≤ y.distance :=
  C1_search_topk (fun _ v => v.headD 0)
    [("a", ⟨some [3], 0⟩), ("b", ⟨some [1], 0⟩), ("c", ⟨some [2], 0⟩)] [] 2
    (by decide)

theorem lookupRow_setRow_self (db : DB) (id : String) (r : Row) :
    lookupRow (setRow db id r) id = some r := by
  induction db with
  | nil => simp [setRow, lookupRow]
  | cons kv rest ih =>
      by_cases h : kv.1 = id
      · simp [setRow, h, lookupRow]
      · simp only [setRow]
        rw [if_neg h]
        simp only [lookupRow]
        rw [if_neg h]
        exact ih

/-- C2 counterexample: two `Add`s for the same id with EQUAL timestamps — the
claim says the second is a no-op and the row stays `(v1, t1)`, but
`stamp.After` is strict, so an equal-stamp insert overwrites: the row ends
at `(v2, t1)`. -/
theorem C2_counterexample :
    lookupRow (dbAdd (dbAdd [] "a" (some [1]) 0) "a" (some [2]) 0) "a" =
      some ⟨some [2], 0⟩ ∧
    lookupRow (dbAdd (dbAdd [] "a" (some [1]) 0) "a" (some [2]) 0) "a" ≠
      some ⟨some [1], 0⟩ := by
  exact ⟨by decide, by decide⟩

/-- C2 amended: after `Add(id,v1,t1); Add(id,v2,t2)` on an index not holding
`id`, the row is `(v1,t1)` iff `t2 < t1` (a strictly-older insert is a
no-op), and `(v2,t2)` iff `t2 ≥ t1` — an equal-timestamp insert overwrites;
last-write-wins resolves equal stamps in favour of the later arrival. -/
theorem C2_add_upsert (db : DB) (id : String) (v1 v2 : Option (List ℚ))
    (t1 t2 : ℤ) (hfresh : lookupRow db id = none) :
    lookupRow (dbAdd (dbAdd db id v1 t1) id v2 t2) id =
      some (if t2 < t1 then Row.mk v1 t1 else Row.mk v2 t2) := by
  have h1 : dbAdd db id v1 t1 = setRow db id ⟨v1, t1⟩ := by
    simp [dbAdd, hfresh]
  have h2 : lookupRow (setRow db id ⟨v1, t1⟩) id = some (Row.mk v1 t1) :=
    lookupRow_setRow_self db id ⟨v1, t1⟩
  rw [h1]
  unfold dbAdd
  rw [h2]
  by_cases h : t2 < t1
  · simp only [h, if_true]
    exact h2
  · simp only [h, if_false]
    exact lookupRow_setRow_self _ id ⟨v2, t2⟩

/-- Witness for C2 amended: both branches at concrete stamps (`t2 < t1` keeps
the old row; `t2 = t1` overwrites). -/
theorem C2_add_upsert_witness :
    lookupRow (dbAdd (dbAdd [] "a" (some [1]) 5) "a" (some [2]) 3) "a" =
      some (if (3 : ℤ) < 5 then Row.mk (some [1]) 5 else Row.mk (some [2]) 3) ∧
    lookupRow (dbAdd (dbAdd [] "a" (some [1]) 5) "a" (some [2]) 5) "a" =
      some (if (5 : ℤ) < 5 then Row.mk (some [1]) 5 else Row.mk (some [2]) 5) :=
  ⟨C2_add_upsert [] "a" (some [1]) (some [2]) 5 3 (by decide),
   C2_add_upsert [] "a" (some [1]) (some [2]) 5 5 (by decide)⟩

theorem mem_row_unique (db : DB) (hnodup : (db.map Prod.fst).Nodup)
    (key : String) (r1 r2 : Row) (h1 : (key, r1) ∈ db) (h2 : (key, r2) ∈ db) :
    r1 = r2 := by
  induction db with
  | nil => simp at h1
  | cons kv rest ih =>
      rw [List.map_cons, List.nodup_cons] at hnodup
      rcases List.mem_cons.mp h1 with h1' | h1'
      · rcases List.mem_cons.mp h2 with h2' | h2'
        · injection h1'.trans h2'.symm with ha hb
        · exfalso
          subst h1'
          exact hnodup.1 (List.mem_map.mpr ⟨(key, r2), h2', rfl⟩)
      · rcases List.mem_cons.mp h2 with h2' | h2'
        · exfalso
          subst h2'
          exact hnodup.1 (List.mem_map.mpr ⟨(key, r1), h1', rfl⟩)
        · exact ih hnodup.2 h1' h2'

theorem mem_resultsOf (dist : List ℚ → List ℚ → ℚ) (q : List ℚ) (db : DB)
    (r : Result) (h : r ∈ resultsOf dist q db) :
    ∃ kv ∈ db, ∃ v, kv.2.vector = some v ∧ r = Result.mk kv.1 (dist q v) := by
  rcases List.mem_filterMap.mp h with ⟨kv, hkv, hmap⟩
  cases hv : kv.2.vector with
  | none => rw [hv] at hmap; simp at hmap
  | some v =>
      rw [hv] at hmap
      simp only [Option.map_some', Option.some.injEq] at hmap
      exact ⟨kv, hkv, v, hv, hmap.symm⟩

theorem numRows_count_split (db : DB) :
    numRows db = (db.countP fun kv => kv.2.vector.isNone) +
      (db.countP fun kv => kv.2.vector.isSome) := by
  induction db with
  | nil => rfl
  | cons kv rest ih =>
      cases hv : kv.2.vector with
      | none =>
          simp only [numRows, List.length_cons, List.countP_cons, hv]
          simp only [numRows] at ih
          simp [ih]
          omega
      | some v =>
          simp only [numRows, List.length_cons, List.countP_cons, hv]
          simp only [numRows] at ih
          simp [ih]
          omega

/-- C8: a row whose vector is absent (a nil Go slice — the decoded form of an
"empty/absent" embedding) never appears in any `Search` result set for any
distance function, query and bound, while `NumRows` still counts every
stored id: the total is the number of placeholder rows plus the number of
searchable rows. -/
theorem C8_placeholder_rows (db : DB) (id : String) (row : Row)
    (hnodup : (db.map Prod.fst).Nodup) (hmem : (id, row) ∈ db)
    (hnone : row.vector = none) :
    (∀ dist q k, ∀ r ∈ dbSearch dist db q k, r.path ≠ id) ∧
    numRows db = (db.countP fun kv => kv.2.vector.isNone) +
      (db.countP fun kv => kv.2.vector.isSome) := by
  refine ⟨?_, numRows_count_split db⟩
  intro dist q k r hr hpath
  rcases dbSearch_spec dist db q k with ⟨rest, hperm, -, -, -⟩
  have hrin : r ∈ resultsOf dist q db :=
    hperm.mem_iff.mpr (List.mem_append.mpr (Or.inl hr))
  rcases mem_resultsOf dist q db r hrin with ⟨kv, hkv, v, hv, hrv⟩
  have hkv1 : kv.1 = id := by rw [hrv] at hpath; exact hpath
  have : kv.2 = row := by
    refine mem_row_unique db hnodup id kv.2 row ?_ hmem
    rw [← hkv1]
    exact hkv
  rw [this, hnone] at hv
  exact Option.noConfusion hv

/-- Witness for C8: a two-row index with one placeholder row. -/
theorem C8_placeholder_rows_witness :
    (∀ dist q k,
      ∀ r ∈ dbSearch dist [("p", ⟨none, 0⟩), ("a", ⟨some [1], 5⟩)] q k,
        r.path ≠ "p") ∧
    numRows [("p", ⟨none, 0⟩), ("a", ⟨some [1], 5⟩)] =
      ([("p", (⟨none, 0⟩ : Row)), ("a", ⟨some [1], 5⟩)].countP
        fun kv => kv.2.vector.isNone) +
      ([("p", (⟨none, 0⟩ : Row)), ("a", ⟨some [1], 5⟩)].countP
        fun kv => kv.2.vector.isSome) :=
  C8_placeholder_rows [("p", ⟨none, 0⟩), ("a", ⟨some [1], 5⟩)] "p" ⟨none, 0⟩
    (by decide) (by decide) rfl

end Search

namespace Backai

/-- Go `api.PostResponse`.  Here `refPfx` is the `ReferencePrefix` field and `chatId`
the `ChatID` field (JSON `chat_id`). -/
structure PostResponse where
  message : String
  references : List String
  refPfx : String
  chatId : String
deriving DecidableEq, Repr

/-- The per-chat variable store.  Modelled from the spec: the session state
carries "a boolean should-summarize flag, and an optional final response
value" (`store.Var[bool]` / `store.Var[api.PostResponse]` of the external
lingograph library); a variable read yields `(value, ok)`, modelled as
`Option`. -/
structure Store where
  doSummarize : Option Bool
  response : Option PostResponse
deriving DecidableEq, Repr

/-- A `lingograph.Chat`: transcript plus its variable store.  History entries
are modelled by their `Content` string, the only field `ctx.Query` reads. -/
structure Chat where
  history : List String
  vars : Store
deriving DecidableEq, Repr

/-- Go `lingograph.NewChat()`. -/
def newChat : Chat := ⟨[], ⟨none, none⟩⟩

/-- Go `recentChatsLimit`. -/
def recentChatsLimit : Nat := 10

/-- Modelled from the spec: the session store is backed by the external
`groupcache/lru` cache (capacity `recentChatsLimit`).  Per the spec, recency
is refreshed by both `Get` and `Put`, and a `Put` of a new key at capacity
evicts the least recently touched entry.  The cache is the list of entries
in recency order, most recent first; `cacheAdd` is `lru.Cache.Add`. -/
def cacheAdd (cache : List (String × Chat)) (key : String) (value : Chat) :
    List (String × Chat) :=
  if (List.lookup key cache).isSome then
    (key, value) :: cache.eraseP fun kv => kv.1 == key
  else
    let c := (key, value) :: cache
    if recentChatsLimit < c.length then c.dropLast else c

/-- Go `lru.Cache.Get`: a hit refreshes the entry's recency (moves it to the
front) and returns the value. -/
def cacheGet (cache : List (String × Chat)) (key : String) :
    Option Chat × List (String × Chat) :=
  match List.lookup key cache with
  | some v => (some v, (key, v) :: cache.eraseP fun kv => kv.1 == key)
  | none => (none, cache)

/-- Go `recentChats.get`: the empty key is rejected without touching the
cache. -/
def recentChatsGet (cache : List (String × Chat)) (key : String) :
    Option Chat × List (String × Chat) :=
  if key = "" then (none, cache) else cacheGet cache key

/-- Replace the value stored under `key` without touching recency: the Go
code mutates the `lingograph.Chat` the cache already points to, so the
updated transcript is visible in the cache in place. -/
def cacheSetValue (cache : List (String × Chat)) (key : String) (value : Chat) :
    List (String × Chat) :=
  cache.map fun kv => if kv.1 == key then (key, value) else kv

/-- One session-store operation, for stating reachability of cache states. -/
inductive CacheOp
  | put (key : String) (value : Chat)
  | get (key : String)

def applyOp (cache : List (String × Chat)) : CacheOp → List (String × Chat)
  | CacheOp.put k v => cacheAdd cache k v
  | CacheOp.get k => (recentChatsGet cache k).2

/-- The cache state after a sequence of operations on an initially empty
store. -/
def applyOps (ops : List CacheOp) : List (String × Chat) :=
  ops.foldl applyOp []

theorem lookup_some_mem {β : Type} (l : List (String × β)) (k : String) (v : β)
    (h : List.lookup k l = some v) : (k, v) ∈ l := by
  induction l with
  | nil => simp [List.lookup] at h
  | cons kv rest ih =>
      rw [List.lookup] at h
      cases hbeq : k == kv.1 with
      | true =>
          rw [hbeq] at h
          simp only [Option.some.injEq] at h
          have hk : k = kv.1 := eq_of_beq hbeq
          have : kv = (k, v) := by
            rcases kv with ⟨k', v'⟩
            simp only at h hk
            simp [hk, h]
          exact this ▸ List.mem_cons_self _ _
      | false =>
          rw [hbeq] at h
          exact List.mem_cons_of_mem _ (ih h)

theorem cacheAdd_length (cache : List (String × Chat)) (k : String) (v : Chat)
    (h : cache.length ≤ recentChatsLimit) :
    (cacheAdd cache k v).length ≤ recentChatsLimit := by
  unfold cacheAdd
  by_cases hs : (List.lookup k cache).isSome
  · rw [if_pos hs]
    rcases Option.isSome_iff_exists.mp hs with ⟨c, hc⟩
    have hmem : (k, c) ∈ cache := lookup_some_mem cache k c hc
    have h1 : (cache.eraseP fun kv => kv.1 == k).length + 1 = cache.length :=
      List.length_eraseP_add_one hmem (by simp)
    simp only [List.length_cons]
    omega
  · rw [if_neg hs]
    simp only []
    by_cases hcap : recentChatsLimit < ((k, v) :: cache).length
    · rw [if_pos hcap]
      rw [List.length_dropLast]
      simp only [List.length_cons]
      omega
    · rw [if_neg hcap]
      simp only [List.length_cons] at hcap ⊢
      omega

theorem cacheGet_length (cache : List (String × Chat)) (k : String)
    (h : cache.length ≤ recentChatsLimit) :
    (recentChatsGet cache k).2.length ≤ recentChatsLimit := by
  unfold recentChatsGet cacheGet
  by_cases hk : k = ""
  · simpa [hk] using h
  · rw [if_neg hk]
    cases hc : List.lookup k cache with
    | none => simpa using h
    | some c =>
        have hmem : (k, c) ∈ cache := lookup_some_mem cache k c hc
        have h1 : (cache.eraseP fun kv => kv.1 == k).length + 1 = cache.length :=
          List.length_eraseP_add_one hmem (by simp)
        simp only [List.length_cons]
        omega

theorem applyOp_length (cache : List (String × Chat)) (op : CacheOp)
    (h : cache.length ≤ recentChatsLimit) :
    (applyOp cache op).length ≤ recentChatsLimit := by
  cases op with
  | put k v => exact cacheAdd_length cache k v h
  | get k => exact cacheGet_length cache k h

theorem foldl_applyOp_length (ops : List CacheOp)
    (cache : List (String × Chat)) (h : cache.length ≤ recentChatsLimit) :
    (ops.foldl applyOp cache).length ≤ recentChatsLimit := by
  induction ops generalizing cache with
  | nil => simpa using h
  | cons op rest ih =>
      rw [List.foldl_cons]
      exact ih _ (applyOp_length cache op h)

theorem cacheAdd_evicts_last (cache : List (String × Chat)) (key : String)
    (v : Chat) (hnew : List.lookup key cache = none)
    (hcap : cache.length = recentChatsLimit) :
    cacheAdd cache key v = (key, v) :: cache.dropLast := by
  unfold cacheAdd
  rw [hnew]
  simp only [Option.isSome_none, Bool.false_eq_true, if_false]
  have hcap' : recentChatsLimit < ((key, v) :: cache).length := by
    simp only [List.length_cons, hcap]
    omega
  rw [if_pos hcap']
  cases cache with
  | nil => simp [recentChatsLimit] at hcap
  | cons kv rest => rfl

/-- C7: the session store never exceeds its fixed capacity of 10 entries —
any sequence of `Get`/`Put` operations from the empty store stays within
bound — and a `Put` of a new session id at capacity evicts exactly the least
recently touched entry (the back of the recency order, which both `Get` and
`Put` refresh): the new entry goes in front and every other entry
survives. -/
theorem C7_session_store_lru (ops : List CacheOp)
    (cache : List (String × Chat)) (key : String) (v : Chat)
    (hnew : List.lookup key cache = none)
    (hcap : cache.length = recentChatsLimit) :
    (applyOps ops).length ≤ recentChatsLimit ∧
    cacheAdd cache key v = (key, v) :: cache.dropLast ∧
    ∀ kv ∈ cache.dropLast, kv ∈ cacheAdd cache key v := by
  have hev := cacheAdd_evicts_last cache key v hnew hcap
  refine ⟨foldl_applyOp_length ops [] (by simp [recentChatsLimit]), hev, ?_⟩
  intro kv hkv
  rw [hev]
  exact List.mem_cons_of_mem _ hkv

/-- Witness for C7: a concrete operation sequence and a concrete full cache
with an unknown new key. -/
theorem C7_session_store_lru_witness :
    (applyOps [CacheOp.put "a" newChat, CacheOp.get "a",
      CacheOp.put "b" newChat]).length ≤ recentChatsLimit ∧
    cacheAdd [("k0", newChat), ("k1", newChat), ("k2", newChat),
        ("k3", newChat), ("k4", newChat), ("k5", newChat), ("k6", newChat),
        ("k7", newChat), ("k8", newChat), ("k9", newChat)] "fresh" newChat =
      ("fresh", newChat) :: [("k0", newChat), ("k1", newChat), ("k2", newChat),
        ("k3", newChat), ("k4", newChat), ("k5", newChat), ("k6", newChat),
        ("k7", newChat), ("k8", newChat), ("k9", newChat)].dropLast ∧
    ∀ kv ∈ [("k0", newChat), ("k1", newChat), ("k2", newChat),
        ("k3", newChat), ("k4", newChat), ("k5", newChat), ("k6", newChat),
        ("k7", newChat), ("k8", newChat), ("k9", newChat)].dropLast,
      kv ∈ cacheAdd [("k0", newChat), ("k1", newChat), ("k2", newChat),
        ("k3", newChat), ("k4", newChat), ("k5", newChat), ("k6", newChat),
        ("k7", newChat), ("k8", newChat), ("k9", newChat)] "fresh" newChat :=
  C7_session_store_lru _ _ "fresh" newChat (by decide) (by decide)

/-- The external collaborators a turn may call: the embedding client, the
document store (`WikiRW`), the distance function used inside `db.Search`
(cosine distance, computed by gonum), and the wall clock (`time.Now()`).
`wikiWrite` returns `some err` on failure, `none` on success. -/
structure Env where
  embed : String → Except String (List ℚ)
  wikiWrite : String → String → List ℚ → Option String
  wikiRead : String → Except String String
  dist : List ℚ → List ℚ → ℚ
  now : ℤ

/-- The mutable state a tool handler touches: the shared vector index and the
chat's variable store. -/
structure TurnState where
  db : Search.DB
  vars : Store

/-- The `write` tool handler of `pipelineSearch`: embed the content (abort on
failure), call the document store's `Write`, then UNCONDITIONALLY insert the
row into the vector index, and only then inspect the `Write` error; on
success record the fixed "saved" response in the response variable. -/
def writeTool (env : Env) (wikiPfx : String) (st : TurnState)
    (path content : String) : Except String PostResponse × TurnState :=
  match env.embed content with
  | Except.error e => (Except.error ("failed to embed content: " ++ e), st)
  | Except.ok embedding =>
      let werr := env.wikiWrite path content embedding
      let db' := Search.dbAdd st.db path (some embedding) env.now
      match werr with
      | some e => (Except.error e, { st with db := db' })
      | none =>
          let response : PostResponse :=
            ⟨"I saved a new note for you: " ++ path, [path], wikiPfx, ""⟩
          (Except.ok response,
            { db := db', vars := { st.vars with response := some response } })

/-- Read each matched page via the document store, abort on the first
failure, and tag each document with its id. -/
def readPages (env : Env) : List String → Except String (List String)
  | [] => Except.ok []
  | p :: ps =>
      match env.wikiRead p with
      | Except.error e => Except.error e
      | Except.ok content =>
          match readPages env ps with
          | Except.error e => Except.error e
          | Except.ok rest =>
              Except.ok (("relevant document " ++ p ++ "\n---\n" ++ content) :: rest)

/-- The `search` tool handler of `pipelineSearch`: embed the query (abort on
failure), run the top-5 index search; with no results return the sentinel
without touching the summarize flag; otherwise set the summarize flag FIRST
and then read the matched documents (a read failure aborts the stage but the
flag stays set). -/
def searchTool (env : Env) (st : TurnState) (query : String) :
    Except String (List String) × TurnState :=
  match env.embed query with
  | Except.error e => (Except.error ("failed to vectorize query: " ++ e), st)
  | Except.ok vector =>
      let results := Search.dbSearch env.dist st.db vector 5
      let pages := results.map Search.Result.path
      if pages = [] then (Except.ok ["nothing relevant found"], st)
      else
        let st' := { st with vars := { st.vars with doSummarize := some true } }
        match readPages env pages with
        | Except.error e => (Except.error e, st')
        | Except.ok docs => (Except.ok docs, st')

/-- One tool invocation the Agent Runtime chooses to make during the
retrieval stage. -/
inductive ToolCall
  | write (path content : String)
  | search (query : String)

/-- Run one tool call; the second component is `some err` when the handler
failed (which aborts the stage, state mutations so far included). -/
def runCall (env : Env) (wikiPfx : String) (st : TurnState) :
    ToolCall → TurnState × Option String
  | ToolCall.write path content =>
      match writeTool env wikiPfx st path content with
      | (Except.error e, st') => (st', some e)
      | (Except.ok _, st') => (st', none)
  | ToolCall.search query =>
      match searchTool env st query with
      | (Except.error e, st') => (st', some e)
      | (Except.ok _, st') => (st', none)

/-- The retrieval stage: execute the Agent Runtime's tool calls in order,
stopping at the first failing handler.  (The runtime bounds the rounds at 3;
quantifying over arbitrary call lists subsumes the bounded case.) -/
def runCalls (env : Env) (wikiPfx : String) (st : TurnState) :
    List ToolCall → TurnState × Option String
  | [] => (st, none)
  | c :: cs =>
      match runCall env wikiPfx st c with
      | (st', some e) => (st', some e)
      | (st', none) => runCalls env wikiPfx st' cs

/-- The `summarize` tool's argument (`backai.Summary`). -/
structure Summary where
  text : String
  relevant : List String
  irrelevant : List String

/-- The observable outcome of one `ctx.Query` turn. -/
structure QueryResult where
  response : Except String PostResponse
  chats : List (String × Chat)
  db : Search.DB
  summarizeEntered : Bool
  sessionId : String

/-- Go `ctx.Query(userQuery, chatId)`.  The Agent Runtime's behaviour is
abstracted by `calls` (the retrieval-stage tool calls), `stageOneMsgs` (the
messages the stage appends to the transcript after the user prompt),
`summarizeCall` (the summarize stage's tool call, if the stage runs and the
model invokes the tool) and `summarizeMsgs`.  `freshId` stands for
`uuid.New().String()`.  An unknown or empty `chatId` mints `freshId`, stores
a fresh chat under it, and the turn continues under that id; the summarize
stage runs iff the chat store's summarize flag reads true after the
retrieval stage; finalization prefers the response variable, then the
flag-but-no-response internal error, then falls back to the last transcript
message — only this fallback carries the session id in `ChatID`. -/
def query (env : Env) (wikiPfx : String) (db : Search.DB)
    (chats : List (String × Chat)) (userQuery chatId freshId : String)
    (calls : List ToolCall) (stageOneMsgs : List String)
    (summarizeCall : Option Summary) (summarizeMsgs : List String) :
    QueryResult :=
  let got := recentChatsGet chats chatId
  let chat0 := got.1.getD newChat
  let chatId' := if got.1.isSome then chatId else freshId
  let cache2 :=
    if got.1.isSome then got.2 else cacheAdd got.2 freshId newChat
  let st0 : TurnState := ⟨db, chat0.vars⟩
  let run := runCalls env wikiPfx st0 calls
  let st1 := run.1
  let hist1 := chat0.history ++ userQuery :: stageOneMsgs
  match run.2 with
  | some e =>
      { response := Except.error e,
        chats := cacheSetValue cache2 chatId' ⟨hist1, st1.vars⟩,
        db := st1.db, summarizeEntered := false, sessionId := chatId' }
  | none =>
      let entered := st1.vars.doSummarize.getD false
      let vars2 :=
        if entered then
          match summarizeCall with
          | some s =>
              { st1.vars with
                response := some ⟨s.text, s.relevant, wikiPfx, ""⟩ }
          | none => st1.vars
        else st1.vars
      let hist2 := if entered then hist1 ++ summarizeMsgs else hist1
      let chatsF := cacheSetValue cache2 chatId' ⟨hist2, vars2⟩
      let response :=
        if hist2.length = 0 then Except.error "no messages"
        else
          match vars2.response with
          | some r => Except.ok r
          | none =>
              if vars2.doSummarize.getD false then
                Except.error "internal error: no response"
              else
                Except.ok ⟨hist2.getLastD "", [], "", chatId'⟩
      { response := response, chats := chatsF, db := st1.db,
        summarizeEntered := entered, sessionId := chatId' }

/-- C10: in the `write` tool handler, the index insertion is performed after
the document-store `Write` call but before its error is inspected: when
embedding succeeds and `Write` fails, the handler returns the `Write` error,
the vector index has nevertheless gained the new `(path, embedding, now)`
row, and the final-response variable is left untouched (in particular
unset). -/
theorem C10_write_indexes_despite_write_error (env : Env) (wikiPfx : String)
    (st : TurnState) (path content : String) (emb : List ℚ) (err : String)
    (hembed : env.embed content = Except.ok emb)
    (hwrite : env.wikiWrite path content emb = some err) :
    writeTool env wikiPfx st path content =
      (Except.error err,
        { st with db := Search.dbAdd st.db path (some emb) env.now }) ∧
    ((writeTool env wikiPfx st path content).2).vars.response =
      st.vars.response := by
  unfold writeTool
  rw [hembed]
  simp [hwrite]

/-- Witness for C10: a concrete environment whose `Write` fails. -/
theorem C10_write_indexes_despite_write_error_witness :
    writeTool
        ⟨fun _ => Except.ok [1], fun _ _ _ => some "disk full",
          fun _ => Except.ok "", fun _ _ => 0, 7⟩
        "/wiki" ⟨[], ⟨none, none⟩⟩ "p" "note" =
      (Except.error "disk full",
        { db := Search.dbAdd [] "p" (some [1]) 7, vars := ⟨none, none⟩ }) ∧
    ((writeTool
        ⟨fun _ => Except.ok [1], fun _ _ _ => some "disk full",
          fun _ => Except.ok "", fun _ _ => 0, 7⟩
        "/wiki" ⟨[], ⟨none, none⟩⟩ "p" "note").2).vars.response =
      (⟨[], ⟨none, none⟩⟩ : TurnState).vars.response :=
  C10_write_indexes_despite_write_error _ "/wiki" _ "p" "note" [1] "disk full"
    rfl rfl

theorem writeTool_doSummarize (env : Env) (wikiPfx : String) (st : TurnState)
    (path content : String) :
    ((writeTool env wikiPfx st path content).2).vars.doSummarize =
      st.vars.doSummarize := by
  unfold writeTool
  cases henv : env.embed content with
  | error e => rfl
  | ok emb =>
      simp only []
      cases hw : env.wikiWrite path content emb <;> simp

theorem writeTool_response_chatId (env : Env) (wikiPfx : String)
    (st : TurnState) (path content : String)
    (h : ∀ r, st.vars.response = some r → r.chatId = "") :
    ∀ r, ((writeTool env wikiPfx st path content).2).vars.response = some r →
      r.chatId = "" := by
  unfold writeTool
  cases henv : env.embed content with
  | error e => exact h
  | ok emb =>
      simp only []
      cases hw : env.wikiWrite path content emb with
      | some e => exact h
      | none =>
          intro r hr
          simp only [Option.some.injEq] at hr
          rw [← hr]

theorem searchTool_vars (env : Env) (st : TurnState) (q : String) :
    ((searchTool env st q).2).vars.response = st.vars.response ∧
    (((searchTool env st q).2).vars.doSummarize = st.vars.doSummarize ∨
      ((searchTool env st q).2).vars.doSummarize = some true) := by
  unfold searchTool
  cases henv : env.embed q with
  | error e => exact ⟨rfl, Or.inl rfl⟩
  | ok vector =>
      simp only []
      by_cases hp : (Search.dbSearch env.dist st.db vector 5).map
          Search.Result.path = []
      · rw [if_pos hp]
        exact ⟨rfl, Or.inl rfl⟩
      · rw [if_neg hp]
        cases hr : readPages env ((Search.dbSearch env.dist st.db vector 5).map
            Search.Result.path) with
        | error e => exact ⟨rfl, Or.inr rfl⟩
        | ok docs => exact ⟨rfl, Or.inr rfl⟩

theorem runCall_write_doSummarize (env : Env) (wikiPfx : String)
    (st : TurnState) (p ct : String) :
    ((runCall env wikiPfx st (ToolCall.write p ct)).1).vars.doSummarize =
      st.vars.doSummarize := by
  have hw := writeTool_doSummarize env wikiPfx st p ct
  cases hcall : writeTool env wikiPfx st p ct with
  | mk res st' =>
      rw [hcall] at hw
      simp only [runCall, hcall]
      cases res <;> simpa using hw

theorem runCalls_doSummarize (env : Env) (wikiPfx : String)
    (calls : List ToolCall)
    (hnosearch : ∀ c ∈ calls, ∀ q, c ≠ ToolCall.search q) :
    ∀ st : TurnState,
      ((runCalls env wikiPfx st calls).1).vars.doSummarize =
        st.vars.doSummarize := by
  induction calls with
  | nil => intro st; rfl
  | cons c cs ih =>
      intro st
      have hcs : ∀ c' ∈ cs, ∀ q, c' ≠ ToolCall.search q :=
        fun c' h' q => hnosearch c' (List.mem_cons_of_mem _ h') q
      cases c with
      | search q => exact absurd rfl (hnosearch _ (List.mem_cons_self _ _) q)
      | write p ct =>
          have h1 := runCall_write_doSummarize env wikiPfx st p ct
          cases hcall : runCall env wikiPfx st (ToolCall.write p ct) with
          | mk st' errOpt =>
              rw [hcall] at h1
              simp only [runCalls, hcall]
              cases errOpt with
              | some e => simpa using h1
              | none =>
                  simp only []
                  rw [ih hcs st']
                  simpa using h1

theorem runCall_response_chatId (env : Env) (wikiPfx : String)
    (st : TurnState) (c : ToolCall)
    (h : ∀ r, st.vars.response = some r → r.chatId = "") :
    ∀ r, ((runCall env wikiPfx st c).1).vars.response = some r →
      r.chatId = "" := by
  cases c with
  | write p ct =>
      have hw := writeTool_response_chatId env wikiPfx st p ct h
      cases hcall : writeTool env wikiPfx st p ct with
      | mk res st' =>
          rw [hcall] at hw
          simp only [runCall, hcall]
          cases res <;> simpa using hw
  | search q =>
      have hs := (searchTool_vars env st q).1
      cases hcall : searchTool env st q with
      | mk res st' =>
          rw [hcall] at hs
          simp only [runCall, hcall]
          cases res with
          | error e =>
              intro r hr
              simp only [] at hr
              apply h r
              rw [← hs]
              exact hr
          | ok docs =>
              intro r hr
              simp only [] at hr
              apply h r
              rw [← hs]
              exact hr

theorem runCalls_response_chatId (env : Env) (wikiPfx : String)
    (calls : List ToolCall) :
    ∀ st : TurnState, (∀ r, st.vars.response = some r → r.chatId = "") →
      ∀ r, ((runCalls env wikiPfx st calls).1).vars.response = some r →
        r.chatId = "" := by
  induction calls with
  | nil => intro st h; exact h
  | cons c cs ih =>
      intro st h
      have hstep := runCall_response_chatId env wikiPfx st c h
      cases hcall : runCall env wikiPfx st c with
      | mk st' errOpt =>
          rw [hcall] at hstep
          simp only [runCalls, hcall]
          cases errOpt with
          | some e => simpa using hstep
          | none =>
              simp only []
              exact ih st' (by simpa using hstep)

/-- C4 counterexample: a turn that continues an existing session whose
earlier turn set the summarize flag.  The turn makes NO tool calls at all —
in particular it never invokes `search` — yet the summarize stage is
entered, because the flag lives in the chat's store, persists across turns,
and is never reset. -/
theorem C4_counterexample :
    (query ⟨fun _ => Except.ok [1], fun _ _ _ => none, fun _ => Except.ok "d",
          fun _ _ => 0, 0⟩ "/w" []
        [("s", ⟨["m0"], ⟨some true, none⟩⟩)] "hello" "s" "f" [] ["reply"]
        (some ⟨"sum", [], []⟩) ["sm"]).summarizeEntered = true := by
  rfl

/-- C4 amended: a turn whose retrieval stage never invokes the `search` tool
does not enter the summarize stage, PROVIDED the session's stored summarize
flag is not already set by an earlier turn — the flag persists in the chat
store across turns and is never reset, so a continuing session whose earlier
turn invoked `search` still enters summarize even when the current turn does
not. -/
theorem C4_no_search_skips_summarize (env : Env) (wikiPfx : String)
    (db : Search.DB) (chats : List (String × Chat))
    (userQuery chatId freshId : String) (calls : List ToolCall)
    (stageOneMsgs : List String) (summarizeCall : Option Summary)
    (summarizeMsgs : List String)
    (hnosearch : ∀ c ∈ calls, ∀ q, c ≠ ToolCall.search q)
    (hflag : ∀ c, (recentChatsGet chats chatId).1 = some c →
      c.vars.doSummarize.getD false = false) :
    (query env wikiPfx db chats userQuery chatId freshId calls stageOneMsgs
      summarizeCall summarizeMsgs).summarizeEntered = false := by
  have hflag' : ((recentChatsGet chats chatId).1.getD
      newChat).vars.doSummarize.getD false = false := by
    cases hc : (recentChatsGet chats chatId).1 with
    | none => rfl
    | some c => simpa using hflag c hc
  have hpres := runCalls_doSummarize env wikiPfx calls hnosearch
    ⟨db, ((recentChatsGet chats chatId).1.getD newChat).vars⟩
  unfold query
  simp only []
  cases hr : (runCalls env wikiPfx
      ⟨db, ((recentChatsGet chats chatId).1.getD newChat).vars⟩ calls).2 with
  | some e => simp [hr]
  | none =>
      simp only [hr]
      rw [hpres]
      simpa using hflag'

theorem cacheAdd_head (cache : List (String × Chat)) (k : String) (v : Chat) :
    ∃ tl, cacheAdd cache k v = (k, v) :: tl := by
  unfold cacheAdd
  by_cases hs : (List.lookup k cache).isSome
  · rw [if_pos hs]
    exact ⟨_, rfl⟩
  · rw [if_neg hs]
    simp only []
    by_cases hcap : recentChatsLimit < ((k, v) :: cache).length
    · rw [if_pos hcap]
      cases cache with
      | nil => simp [recentChatsLimit] at hcap
      | cons kv rest => exact ⟨_, rfl⟩
    · rw [if_neg hcap]
      exact ⟨_, rfl⟩

theorem cacheSetValue_keys (cache : List (String × Chat)) (k : String)
    (v : Chat) :
    (cacheSetValue cache k v).map Prod.fst = cache.map Prod.fst := by
  induction cache with
  | nil => rfl
  | cons kv rest ih =>
      simp only [cacheSetValue, List.map_cons] at ih ⊢
      by_cases h : (kv.1 == k) = true
      · rw [if_pos h]
        have hk : kv.1 = k := eq_of_beq h
        rw [hk]
        exact congrArg (List.cons k) ih
      · rw [if_neg h]
        exact congrArg (List.cons kv.1) ih

/-- C5 counterexample: a succeeding turn on a fresh session ("" session id)
whose final response is produced by the `write` tool.  The minted id is "f",
but the returned response carries an empty `ChatID`: only the free-text
fallback path fills that field. -/
theorem C5_counterexample :
    (query ⟨fun _ => Except.ok [1], fun _ _ _ => none, fun _ => Except.ok "d",
          fun _ _ => 0, 0⟩ "/w" [] [] "save" "" "f"
        [ToolCall.write "p" "note"] ["m"] none []).response =
      Except.ok ⟨"I saved a new note for you: p", ["p"], "/w", ""⟩ ∧
    (query ⟨fun _ => Except.ok [1], fun _ _ _ => none, fun _ => Except.ok "d",
          fun _ _ => 0, 0⟩ "/w" [] [] "save" "" "f"
        [ToolCall.write "p" "note"] ["m"] none []).sessionId = "f" ∧
    ("f" : String) ≠ "" :=
  ⟨rfl, rfl, by decide⟩

/-- C5 amended: on an empty or unknown session id, a fresh id is minted, the
turn runs under it and the minted id is stored in the session store; but the
returned response carries the minted id in its `ChatID` only when the
free-text fallback produced it — a response set by the `write` or
`summarize` tool is returned with an empty `ChatID`. -/
theorem C5_minted_session_id (env : Env) (wikiPfx : String) (db : Search.DB)
    (chats : List (String × Chat)) (userQuery chatId freshId : String)
    (calls : List ToolCall) (stageOneMsgs : List String)
    (summarizeCall : Option Summary) (summarizeMsgs : List String)
    (hmiss : (recentChatsGet chats chatId).1 = none) :
    (query env wikiPfx db chats userQuery chatId freshId calls stageOneMsgs
        summarizeCall summarizeMsgs).sessionId = freshId ∧
    freshId ∈ (query env wikiPfx db chats userQuery chatId freshId calls
        stageOneMsgs summarizeCall summarizeMsgs).chats.map Prod.fst ∧
    ∀ r, (query env wikiPfx db chats userQuery chatId freshId calls
        stageOneMsgs summarizeCall summarizeMsgs).response = Except.ok r →
      r.chatId = freshId ∨ r.chatId = "" := by
  have hresp1 := runCalls_response_chatId env wikiPfx calls
    ⟨db, newChat.vars⟩ (by intro r hr; exact Option.noConfusion hr)
  have hkeys : ∀ ch : Chat, freshId ∈
      (cacheSetValue (cacheAdd (recentChatsGet chats chatId).2 freshId newChat)
        freshId ch).map Prod.fst := by
    intro ch
    rw [cacheSetValue_keys]
    rcases cacheAdd_head (recentChatsGet chats chatId).2 freshId newChat with
      ⟨tl, htl⟩
    rw [htl]
    exact List.mem_cons_self _ _
  unfold query
  simp only []
  rw [hmiss]
  simp only [Option.isSome_none, Bool.false_eq_true, if_false, Option.getD_none]
  cases hr : (runCalls env wikiPfx ⟨db, newChat.vars⟩ calls).2 with
  | some e =>
      simp only [hr]
      refine ⟨by trivial, hkeys _, ?_⟩
      intro r hrr
      exact Except.noConfusion hrr
  | none =>
      simp only [hr]
      refine ⟨by trivial, hkeys _, ?_⟩
      intro r hrr
      by_cases hh : (if (runCalls env wikiPfx ⟨db, newChat.vars⟩ calls).1.vars.doSummarize.getD false
          then (newChat.history ++ userQuery :: stageOneMsgs) ++ summarizeMsgs
          else newChat.history ++ userQuery :: stageOneMsgs).length = 0
      · rw [if_pos hh] at hrr
        exact Except.noConfusion hrr
      · rw [if_neg hh] at hrr
        by_cases hent : (runCalls env wikiPfx ⟨db, newChat.vars⟩
            calls).1.vars.doSummarize.getD false
        · rw [if_pos hent] at hrr
          cases hsc : summarizeCall with
          | some s =>
              rw [hsc] at hrr
              simp only [Except.ok.injEq] at hrr
              right
              rw [← hrr]
          | none =>
              rw [hsc] at hrr
              cases hv : (runCalls env wikiPfx ⟨db, newChat.vars⟩
                  calls).1.vars.response with
              | some resp =>
                  rw [hv] at hrr
                  simp only [Except.ok.injEq] at hrr
                  right
                  rw [← hrr]
                  exact hresp1 resp hv
              | none =>
                  rw [hv] at hrr
                  by_cases hds : (runCalls env wikiPfx ⟨db, newChat.vars⟩
                      calls).1.vars.doSummarize.getD false
                  · rw [if_pos hds] at hrr
                    exact Except.noConfusion hrr
                  · rw [if_neg hds] at hrr
                    simp only [Except.ok.injEq] at hrr
                    left
                    rw [← hrr]
        · rw [if_neg hent] at hrr
          cases hv : (runCalls env wikiPfx ⟨db, newChat.vars⟩
              calls).1.vars.response with
          | some resp =>
              rw [hv] at hrr
              simp only [Except.ok.injEq] at hrr
              right
              rw [← hrr]
              exact hresp1 resp hv
          | none =>
              rw [hv] at hrr
              by_cases hds : (runCalls env wikiPfx ⟨db, newChat.vars⟩
                  calls).1.vars.doSummarize.getD false
              · rw [if_pos hds] at hrr
                exact Except.noConfusion hrr
              · rw [if_neg hds] at hrr
                simp only [Except.ok.injEq] at hrr
                left
                rw [← hrr]

/-- Witness for C4 amended: a fresh session whose only tool call is a
`write`. -/
theorem C4_no_search_skips_summarize_witness :
    (query ⟨fun _ => Except.ok [1], fun _ _ _ => none, fun _ => Except.ok "d",
          fun _ _ => 0, 0⟩ "/w" [] [] "hi" "" "f" [ToolCall.write "p" "c"]
        ["m"] none []).summarizeEntered = false :=
  C4_no_search_skips_summarize _ "/w" [] [] "hi" "" "f" _ ["m"] none []
    (by
      intro c hc q
      rw [List.mem_singleton] at hc
      subst hc
      exact fun heq => ToolCall.noConfusion heq)
    (fun c hc => Option.noConfusion hc)

/-- Witness for C5 amended: a fresh session with one successful `write`
call. -/
theorem C5_minted_session_id_witness :
    (query ⟨fun _ => Except.ok [1], fun _ _ _ => none, fun _ => Except.ok "d",
          fun _ _ => 0, 0⟩ "/w" [] [] "save" "" "f"
        [ToolCall.write "p" "note"] ["m"] none []).sessionId = "f" ∧
    "f" ∈ (query ⟨fun _ => Except.ok [1], fun _ _ _ => none,
          fun _ => Except.ok "d", fun _ _ => 0, 0⟩ "/w" [] [] "save" "" "f"
        [ToolCall.write "p" "note"] ["m"] none []).chats.map Prod.fst ∧
    ∀ r, (query ⟨fun _ => Except.ok [1], fun _ _ _ => none,
          fun _ => Except.ok "d", fun _ _ => 0, 0⟩ "/w" [] [] "save" "" "f"
        [ToolCall.write "p" "note"] ["m"] none []).response = Except.ok r →
      r.chatId = "f" ∨ r.chatId = "" :=
  C5_minted_session_id _ "/w" [] [] "save" "" "f" _ ["m"] none [] rfl

end Backai
